import Mathlib

/-!
# Verification of the `lvm2` struct-to-argument marshaler

Shallow embedding of `MarshalArgs` and the `YesNo` helper type from the
repository's marshaling module, together with proofs about the claims of
the specification.

Modelling notes:

* A Go struct handed to `MarshalArgs` is embedded as a `List Field` in
  declaration order; an anonymous (embedded) struct field carries its own
  field list.  The field name is never consulted by `MarshalArgs`, so it is
  not represented.
* Go pointers (`*bool`, `*int`, `*string`, and pointer receivers used by the
  `TextMarshaler` interface) are embedded as `Option`s: `none` is the nil
  pointer.
* The `structs` library helpers are modelled as follows: `Field.Tag "arg"`
  and `Field.IsExported` become data stored on the field; `Field.IsZero`
  (a `reflect.DeepEqual` comparison against the zero value of the field's
  static type) becomes `Value.isZero` below.  A nil slice (the zero value of
  `[]string`) and a non-nil empty slice are both embedded as `[]`: the two
  are observationally identical in `MarshalArgs` (the nil slice is skipped
  by the zero check, the empty slice survives it but its element loop emits
  nothing).
* Any field type outside the cases of the Go type switch is embedded as
  `Value.other kind zero text?`: `kind` is the text `field.Kind()` prints,
  `zero` records `field.IsZero()`, and `text?` is `some t` exactly when the
  dynamic value implements `TextMarshaler` with `MarshalText()` returning
  `t` (and `none` when the interface assertion fails).
* Go panics (`panic("unsupported argument type: ...")`, the nil-pointer
  dereference, and the out-of-range slice write in the positional
  flattening loop) are embedded as `Except.error` results; `MarshalArgs`
  itself has no error return in Go, so every `MErr` is an abort.
-/

namespace Lvm2

/-- The failure conditions (Go panics) that can abort `MarshalArgs`. -/
inductive MErr where
  | unsupportedType (kind : String)
  | indexOutOfRange
  | nilDeref
  deriving DecidableEq

/-- The value of one non-embedded struct field, restricted to the dynamic
shapes the Go type switch in `MarshalArgs` distinguishes. -/
inductive Value where
  | bool (b : Bool)
  | boolPtr (p : Option Bool)
  | int (n : Int)
  | intPtr (p : Option Int)
  | str (s : String)
  | strPtr (p : Option String)
  | strList (l : List String)
  | other (kind : String) (zero : Bool) (text : Option String)
  deriving DecidableEq

/-- One struct field as enumerated by `structs.Fields()`: either an
anonymous (embedded) struct, or a plain field carrying its `arg` tag, its
exportedness, and its value. -/
inductive Field where
  | embedded (tag : String) (exported : Bool) (fields : List Field)
  | plain (tag : String) (exported : Bool) (value : Value)

/-- `structs.Field.IsZero`: `reflect.DeepEqual` against the zero value of
the field's static type (nil for pointers, `false`/`0`/`""` for scalars,
nil for slices). -/
def Value.isZero : Value → Bool
  | .bool b => !b
  | .boolPtr p => p.isNone
  | .int n => n == 0
  | .intPtr p => p.isNone
  | .str s => s == ""
  | .strPtr p => p.isNone
  | .strList l => l.isEmpty
  | .other _ z _ => z

/-- `strconv.Atoi`: optional sign, at least one decimal digit, whole
string, within the 64-bit `int` range. -/
def goAtoi (s : String) : Option Int :=
  match s.data with
  | [] => none
  | c :: rest =>
    let (neg, digits) :=
      if c = '-' then (true, rest)
      else if c = '+' then (false, rest)
      else (false, c :: rest)
    if digits.isEmpty then none
    else if digits.all Char.isDigit then
      let mag : Nat := digits.foldl (fun acc d => acc * 10 + (d.toNat - 48)) 0
      let v : Int := if neg then -(mag : Int) else (mag : Int)
      if v < -(2 ^ 63) ∨ (2 ^ 63 - 1 : Int) < v then none else some v
    else none

/-- A write `posArgs[k] = v` into the Go map `map[int]string`, embedded as
an association list in insertion order with unique keys (a later write to
an existing key overwrites in place). -/
def posInsert (m : List (Int × String)) (k : Int) (v : String) :
    List (Int × String) :=
  if m.any (fun p => p.1 == k) then
    m.map (fun p => if p.1 == k then (p.1, v) else p)
  else m ++ [(k, v)]

/-- The positional flattening loop of `MarshalArgs`
(`orderedPosArgs := make([]string, len(posArgs)); for pos, arg := range
posArgs { orderedPosArgs[pos] = arg }`), applied to one enumeration order
of the map entries.  The Go slice write panics when an index falls outside
`[0, len(posArgs))`; the guard returns `none` in that case. -/
def orderedPosArgs (posArgs : List (Int × String)) : Option (List String) :=
  if posArgs.all (fun p => 0 ≤ p.1 ∧ p.1 < (posArgs.length : Int)) then
    some (posArgs.foldl (fun acc p => acc.set p.1.toNat p.2)
      (List.replicate posArgs.length ""))
  else none

/-- Lines 135–141 of the marshaler: the final `if arg != ""` guard, which
appends a non-empty named token to `args` or writes a non-empty positional
token to its slot, and drops an empty `arg` entirely. -/
def emitArg (isPos : Bool) (k : Int) (args : List String)
    (posArgs : List (Int × String)) (arg : String) :
    List String × List (Int × String) :=
  if arg = "" then (args, posArgs)
  else if isPos then (args, posInsert posArgs k arg)
  else (args ++ [arg], posArgs)

/-- The body of the field loop of `MarshalArgs` for one non-embedded
field: the tag lookup, the `strconv.Atoi` probe, the exported/zero skip,
the type switch, and the final `if arg != ""` append (`emitArg`),
threading the `args` and `posArgs` accumulators. -/
def encodePlain (tag : String) (exported : Bool) (v : Value)
    (args : List String) (posArgs : List (Int × String)) :
    Except MErr (List String × List (Int × String)) :=
  if tag = "" then .ok (args, posArgs)
  else
    let isPosArg := (goAtoi tag).isSome
    let pos := (goAtoi tag).getD 0
    if exported = false ∨ v.isZero then .ok (args, posArgs)
    else
      match v with
      | .bool b =>
        .ok (emitArg isPosArg pos args posArgs
          (if isPosArg then (if b then "true" else "false")
           else if b then tag else ""))
      | .boolPtr none => .error .nilDeref
      | .boolPtr (some b) =>
        .ok (emitArg isPosArg pos args posArgs
          (if isPosArg then (if b then "true" else "false")
           else if b then tag else ""))
      | .int n =>
        .ok (emitArg isPosArg pos args posArgs
          (if isPosArg then toString n else tag ++ "=" ++ toString n))
      | .intPtr none => .error .nilDeref
      | .intPtr (some n) =>
        .ok (emitArg isPosArg pos args posArgs
          (if isPosArg then toString n else tag ++ "=" ++ toString n))
      | .str s =>
        .ok (emitArg isPosArg pos args posArgs
          (if isPosArg then s else tag ++ "=" ++ s))
      | .strPtr none => .error .nilDeref
      | .strPtr (some s) =>
        .ok (emitArg isPosArg pos args posArgs
          (if isPosArg then s else tag ++ "=" ++ s))
      | .strList l =>
        if isPosArg then
          .ok (args,
            (l.foldl (fun acc s => (posInsert acc.1 acc.2 s, acc.2 + 1))
              (posArgs, pos)).1)
        else
          .ok (args ++ l.map (fun s => tag ++ "=" ++ s), posArgs)
      | .other kind _ textq =>
        match textq with
        | some t =>
          .ok (emitArg isPosArg pos args posArgs
            (if isPosArg then t else tag ++ "=" ++ t))
        | none => .error (.unsupportedType kind)

/-- The field loop of `MarshalArgs` over the remaining fields, threading
the `args` and `posArgs` accumulators.  An embedded field runs the full
`MarshalArgs` recursively (the loop on empty accumulators followed by the
positional flattening) and appends the whole recursive result to `args`. -/
def marshalFields : List Field → List String → List (Int × String) →
    Except MErr (List String × List (Int × String))
  | [], args, posArgs => .ok (args, posArgs)
  | .embedded _ _ fs :: rest, args, posArgs =>
    match marshalFields fs [] [] with
    | .error e => .error e
    | .ok (subArgs, subPos) =>
      match orderedPosArgs subPos with
      | some flat => marshalFields rest (args ++ (subArgs ++ flat)) posArgs
      | none => .error .indexOutOfRange
  | .plain tag exported v :: rest, args, posArgs =>
    match encodePlain tag exported v args posArgs with
    | .error e => .error e
    | .ok (args2, posArgs2) => marshalFields rest args2 posArgs2

/-- `MarshalArgs`: run the field loop on empty accumulators, then flatten
the positional map and append it after the named arguments. -/
def MarshalArgs (fields : List Field) : Except MErr (List String) :=
  match marshalFields fields [] [] with
  | .error e => .error e
  | .ok (args, posArgs) =>
    match orderedPosArgs posArgs with
    | some flat => .ok (args ++ flat)
    | none => .error .indexOutOfRange

/-- Fuel-indexed evaluator for `marshalFields`: identical clause for
clause, with an explicit recursion budget so that concrete runs reduce
inside the kernel (`none` means the budget ran out). -/
def marshalFieldsF : Nat → List Field → List String → List (Int × String) →
    Option (Except MErr (List String × List (Int × String)))
  | 0, _, _, _ => none
  | _ + 1, [], args, posArgs => some (.ok (args, posArgs))
  | fuel + 1, .embedded _ _ fs :: rest, args, posArgs =>
    match marshalFieldsF fuel fs [] [] with
    | none => none
    | some (.error e) => some (.error e)
    | some (.ok (subArgs, subPos)) =>
      match orderedPosArgs subPos with
      | some flat => marshalFieldsF fuel rest (args ++ (subArgs ++ flat)) posArgs
      | none => some (.error .indexOutOfRange)
  | fuel + 1, .plain tag exported v :: rest, args, posArgs =>
    match encodePlain tag exported v args posArgs with
    | .error e => some (.error e)
    | .ok (args2, posArgs2) => marshalFieldsF fuel rest args2 posArgs2

/-- Fuel-indexed evaluator for `MarshalArgs`. -/
def MarshalArgsF (fuel : Nat) (fields : List Field) :
    Option (Except MErr (List String)) :=
  match marshalFieldsF fuel fields [] [] with
  | none => none
  | some (.error e) => some (.error e)
  | some (.ok (args, posArgs)) =>
    match orderedPosArgs posArgs with
    | some flat => some (.ok (args ++ flat))
    | none => some (.error .indexOutOfRange)

/-- The `YesNo` type (`type YesNo bool`). -/
abbrev YesNo := Bool

/-- `(*YesNo).MarshalText`, on the dereferenced receiver. -/
def YesNo.MarshalText (yn : YesNo) : String := if yn then "y" else "n"

/-- `func PtrTo[T any](v T) *T`. -/
def PtrTo {α : Type} (v : α) : Option α := some v

/-- `var Yes = PtrTo(YesNo(true))`. -/
def Yes : Option YesNo := PtrTo true

/-- `var No = PtrTo(YesNo(false))`. -/
def No : Option YesNo := PtrTo false

/-- The `Value` embedding of a field of type `*YesNo`: it is outside the
primitive cases of the type switch (its `reflect` kind is `ptr`), and a
non-nil pointer satisfies the `TextMarshaler` interface assertion with
`MarshalText` returning `"y"` or `"n"`. -/
def yesNoPtrValue (p : Option YesNo) : Value :=
  match p with
  | none => .other "ptr" true none
  | some b => .other "ptr" false (some (YesNo.MarshalText b))

instance {ε α : Type} [DecidableEq ε] [DecidableEq α] :
    DecidableEq (Except ε α) := fun x y =>
  match x, y with
  | .ok a, .ok b =>
    if h : a = b then .isTrue (by rw [h]) else .isFalse (by simp [h])
  | .error a, .error b =>
    if h : a = b then .isTrue (by rw [h]) else .isFalse (by simp [h])
  | .ok _, .error _ => .isFalse (by simp)
  | .error _, .ok _ => .isFalse (by simp)

/-- Discriminator for non-embedded fields. -/
def Field.isPlain : Field → Bool
  | .plain _ _ _ => true
  | .embedded _ _ _ => false

/-- The keys of the positional map are pairwise distinct (the invariant the
Go `map[int]string` provides for free). -/
def keysNodup (m : List (Int × String)) : Prop :=
  (m.map Prod.fst).Nodup

/-- The shapes whose encoded argument text is the empty string even though
the field survives the tag/exported/zero checks, so the final
`if arg != ""` guard drops them: a named pointer to `false`, and a
positional pointer to `""` or custom rendering returning `""`. -/
def emitsNothing (v : Value) (isPos : Bool) : Bool :=
  match v, isPos with
  | .boolPtr (some false), false => true
  | .strPtr (some s), true => s == ""
  | .other _ _ (some s), true => s == ""
  | _, _ => false

/-- The largest slot index of the positional map (`0` when empty). -/
def maxKey (m : List (Int × String)) : Int :=
  m.foldl (fun a p => max a p.1) 0

/-- Modelled from the spec (section 4.2 dispatch table and section 4.1 skip
rules): the named tokens one non-embedded field contributes, in element
order — nothing for untagged, positional, unexported or zero-valued
fields; the bare tag for a true boolean and nothing for a false one;
`tag=value` for the other shapes, one token per element of a sequence. -/
def specNamedTokensOfField : Field → List String
  | .embedded _ _ _ => []
  | .plain tag ex v =>
    if tag = "" ∨ (goAtoi tag).isSome ∨ ex = false ∨ v.isZero then []
    else
      match v with
      | .bool b => if b then [tag] else []
      | .boolPtr (some b) => if b then [tag] else []
      | .int n => [tag ++ "=" ++ toString n]
      | .intPtr (some n) => [tag ++ "=" ++ toString n]
      | .str s => [tag ++ "=" ++ s]
      | .strPtr (some s) => [tag ++ "=" ++ s]
      | .strList l => l.map (fun s => tag ++ "=" ++ s)
      | .other _ _ (some t) => [tag ++ "=" ++ t]
      | _ => []

/-- Modelled from the spec: the named tokens of a struct, in declaration
order. -/
def specNamedTokens (fields : List Field) : List String :=
  (fields.map specNamedTokensOfField).flatten

/-- Modelled from the spec (section 4.2, positional flattening): read the
slot indices of the positional map in ascending numeric order up to the
highest populated index, a gap materializing as an empty string. -/
def specPosRead (m : List (Int × String)) : List String :=
  if m.isEmpty then []
  else (List.range ((maxKey m).toNat + 1)).map
    (fun i : Nat => (List.lookup (Int.ofNat i) m).getD "")

instance {ε α : Type} [DecidableEq ε] [DecidableEq α] :
    DecidableEq (Except ε α) := fun x y =>
  match x, y with
  | .ok a, .ok b =>
    if h : a = b then .isTrue (by rw [h]) else .isFalse (by simp [h])
  | .error a, .error b =>
    if h : a = b then .isTrue (by rw [h]) else .isFalse (by simp [h])
  | .ok _, .error _ => .isFalse (by simp)
  | .error _, .ok _ => .isFalse (by simp)

/-! ## Basic lemmas about the embedding -/

/-- The `marshalFields` clause for an embedded field, re-expressed through
`MarshalArgs` (the form the Go source takes:
`args = append(args, MarshalArgs(field.Value())...)`). -/
theorem marshalFields_embedded (tag : String) (ex : Bool)
    (fs rest : List Field) (args : List String)
    (posArgs : List (Int × String)) :
    marshalFields (.embedded tag ex fs :: rest) args posArgs =
      match MarshalArgs fs with
      | .error e => .error e
      | .ok sub => marshalFields rest (args ++ sub) posArgs := by
  simp only [marshalFields, MarshalArgs]
  cases h : marshalFields fs [] [] with
  | error e => rfl
  | ok p =>
    obtain ⟨subArgs, subPos⟩ := p
    cases hf : orderedPosArgs subPos with
    | none => simp [hf]
    | some flat => simp [hf]

/-- Whenever the fuelled evaluator completes, it computes `marshalFields`. -/
theorem marshalFieldsF_sound : ∀ (fuel : Nat) (fields : List Field)
    (args : List String) (posArgs : List (Int × String))
    (r : Except MErr (List String × List (Int × String))),
    marshalFieldsF fuel fields args posArgs = some r →
    marshalFields fields args posArgs = r := by
  intro fuel
  induction fuel with
  | zero =>
    intro fields args posArgs r h
    simp [marshalFieldsF] at h
  | succ n ih =>
    intro fields args posArgs r h
    match fields with
    | [] =>
      simp only [marshalFieldsF, Option.some.injEq] at h
      simp [marshalFields, ← h]
    | .embedded tag ex fs :: rest =>
      rw [marshalFields_embedded]
      simp only [marshalFieldsF] at h
      cases hsub : marshalFieldsF n fs [] [] with
      | none => rw [hsub] at h; exact absurd h (by simp)
      | some subr =>
        rw [hsub] at h
        have hM : marshalFields fs [] [] = subr := ih fs [] [] subr hsub
        cases subr with
        | error e =>
          simp only [Option.some.injEq] at h
          rw [show MarshalArgs fs = .error e by rw [MarshalArgs, hM]]
          simp [← h]
        | ok p =>
          obtain ⟨subArgs, subPos⟩ := p
          cases hf : orderedPosArgs subPos with
          | none =>
            simp only [hf, Option.some.injEq] at h
            rw [show MarshalArgs fs = .error .indexOutOfRange by
              rw [MarshalArgs, hM]; simp [hf]]
            simp [← h]
          | some flat =>
            simp only [hf] at h
            rw [show MarshalArgs fs = .ok (subArgs ++ flat) by
              rw [MarshalArgs, hM]; simp [hf]]
            exact ih rest (args ++ (subArgs ++ flat)) posArgs r h
    | .plain tag ex v :: rest =>
      simp only [marshalFieldsF] at h
      cases he : encodePlain tag ex v args posArgs with
      | error e =>
        rw [he] at h
        simp only [Option.some.injEq] at h
        simp [marshalFields, he, ← h]
      | ok p =>
        obtain ⟨args2, posArgs2⟩ := p
        rw [he] at h
        have := ih rest args2 posArgs2 r h
        simp [marshalFields, he, this]

/-- Whenever the fuelled evaluator completes, it computes `MarshalArgs`. -/
theorem MarshalArgsF_sound (fuel : Nat) (fields : List Field)
    (r : Except MErr (List String)) (h : MarshalArgsF fuel fields = some r) :
    MarshalArgs fields = r := by
  rw [MarshalArgsF] at h
  cases hm : marshalFieldsF fuel fields [] [] with
  | none => rw [hm] at h; exact absurd h (by simp)
  | some mr =>
    rw [hm] at h
    rw [MarshalArgs, marshalFieldsF_sound fuel fields [] [] mr hm]
    cases mr with
    | error e =>
      simp only [Option.some.injEq] at h
      simp [← h]
    | ok p =>
      obtain ⟨args, posArgs⟩ := p
      cases hf : orderedPosArgs posArgs with
      | none =>
        simp only [hf, Option.some.injEq] at h
        simp [hf, ← h]
      | some flat =>
        simp only [hf, Option.some.injEq] at h
        simp [hf, ← h]

/-! ## String helpers -/

theorem str_append_ne_empty_left (s t : String) (h : s ≠ "") :
    s ++ t ≠ "" := by
  intro hc
  apply h
  have hd : s.data ++ t.data = ([] : List Char) := by
    have : (s ++ t).data = ("" : String).data := by rw [hc]
    simpa using this
  have hs : s.data = [] := (List.append_eq_nil.mp hd).1
  exact String.ext hs

theorem str_append_ne_empty_right (s t : String) (h : t ≠ "") :
    s ++ t ≠ "" := by
  intro hc
  apply h
  have hd : s.data ++ t.data = ([] : List Char) := by
    have : (s ++ t).data = ("" : String).data := by rw [hc]
    simpa using this
  have ht : t.data = [] := (List.append_eq_nil.mp hd).2
  exact String.ext ht

theorem tag_eq_ne_empty (tag s : String) :
    tag ++ "=" ++ s ≠ "" := by
  apply str_append_ne_empty_left
  apply str_append_ne_empty_right
  decide

theorem toDigitsCore_length_le (b : Nat) :
    ∀ (fuel n : Nat) (ds : List Char),
      ds.length ≤ (Nat.toDigitsCore b fuel n ds).length := by
  intro fuel
  induction fuel with
  | zero => intro n ds; simp [Nat.toDigitsCore]
  | succ k ih =>
    intro n ds
    rw [Nat.toDigitsCore]
    split
    · simp
    · exact le_trans (by simp) (ih (n / b) _)

theorem toDigitsCore_length_lt (b fuel n : Nat) (ds : List Char) :
    ds.length < (Nat.toDigitsCore b (fuel + 1) n ds).length := by
  rw [Nat.toDigitsCore]
  split
  · simp
  · exact lt_of_lt_of_le (by simp) (toDigitsCore_length_le b fuel (n / b) _)

theorem nat_repr_ne_empty (n : Nat) : Nat.repr n ≠ "" := by
  intro hc
  have hd : (Nat.toDigits 10 n) = ([] : List Char) := by
    have : (Nat.repr n).data = ("" : String).data := by rw [hc]
    simpa [Nat.repr, Nat.toDigits, List.asString] using this
  have := toDigitsCore_length_lt 10 n n []
  rw [show Nat.toDigitsCore 10 (n + 1) n [] = Nat.toDigits 10 n from rfl,
    hd] at this
  simp at this

theorem int_toString_ne_empty (n : Int) : toString n ≠ "" := by
  show Int.repr n ≠ ""
  cases n with
  | ofNat m => exact nat_repr_ne_empty m
  | negSucc m =>
    show "-" ++ Nat.repr (m + 1) ≠ ""
    exact str_append_ne_empty_left _ _ (by decide)

/-! ## Skip and append lemmas -/

/-- Lines 45–58 of the marshaler: a field without a (non-empty) `arg` tag,
an unexported field, and a zero-valued field contribute nothing. -/
theorem encodePlain_skip (tag : String) (ex : Bool) (v : Value)
    (args : List String) (posArgs : List (Int × String))
    (h : tag = "" ∨ ex = false ∨ v.isZero = true) :
    encodePlain tag ex v args posArgs = .ok (args, posArgs) := by
  rcases h with h | h | h
  · simp [encodePlain, h]
  · unfold encodePlain
    by_cases ht : tag = "" <;> simp [ht, h]
  · unfold encodePlain
    by_cases ht : tag = "" <;> simp [ht, h]

/-- The field loop distributes over list concatenation. -/
theorem marshalFields_append (l1 l2 : List Field) (args : List String)
    (posArgs : List (Int × String)) :
    marshalFields (l1 ++ l2) args posArgs =
      match marshalFields l1 args posArgs with
      | .error e => .error e
      | .ok (a, p) => marshalFields l2 a p := by
  induction l1 generalizing args posArgs with
  | nil => simp [marshalFields]
  | cons f rest ih =>
    cases f with
    | embedded t e fs =>
      rw [List.cons_append, marshalFields_embedded, marshalFields_embedded]
      cases MarshalArgs fs with
      | error e2 => rfl
      | ok sub => exact ih _ _
    | plain t e v =>
      rw [List.cons_append]
      simp only [marshalFields]
      cases encodePlain t e v args posArgs with
      | error e2 => rfl
      | ok p2 =>
        obtain ⟨a2, p3⟩ := p2
        exact ih _ _

/-! ## The distinct-keys invariant of the positional map -/

theorem keysNodup_nil : keysNodup [] := by simp [keysNodup]

theorem keysNodup_posInsert (m : List (Int × String)) (k : Int) (v : String)
    (h : keysNodup m) : keysNodup (posInsert m k v) := by
  unfold posInsert
  split
  · unfold keysNodup at h ⊢
    have : (m.map (fun p => if p.1 == k then (p.1, v) else p)).map Prod.fst =
        m.map Prod.fst := by
      rw [List.map_map]
      apply List.map_congr_left
      intro p _
      by_cases hp : p.1 = k <;> simp [hp]
    rw [this]
    exact h
  · rename_i hnot
    unfold keysNodup at h ⊢
    rw [List.map_append]
    simp only [List.map_cons, List.map_nil]
    rw [List.nodup_append]
    refine ⟨h, List.nodup_singleton _, ?_⟩
    intro a ha hb
    simp only [List.mem_singleton] at hb
    subst hb
    rw [List.mem_map] at ha
    obtain ⟨p, hp, hpk⟩ := ha
    exact hnot (List.any_eq_true.mpr ⟨p, hp, by simp [hpk]⟩)

theorem keysNodup_foldl_posInsert (l : List String) :
    ∀ (m : List (Int × String)) (k : Int), keysNodup m →
      keysNodup ((l.foldl (fun acc s => (posInsert acc.1 acc.2 s, acc.2 + 1))
        (m, k)).1) := by
  induction l with
  | nil => intro m k h; simpa using h
  | cons s rest ih =>
    intro m k h
    simp only [List.foldl_cons]
    exact ih (posInsert m k s) (k + 1) (keysNodup_posInsert m k s h)

theorem emitArg_keysNodup (isPos : Bool) (k : Int) (args : List String)
    (pos : List (Int × String)) (arg : String) (hnd : keysNodup pos) :
    keysNodup (emitArg isPos k args pos arg).2 := by
  unfold emitArg
  by_cases ha : arg = ""
  · simpa [ha] using hnd
  · by_cases hp : isPos <;> simp [ha, hp, hnd, keysNodup_posInsert]

theorem encodePlain_keysNodup (tag : String) (ex : Bool) (v : Value)
    (args : List String) (pos : List (Int × String)) (a2 : List String)
    (p2 : List (Int × String)) (hnd : keysNodup pos)
    (h : encodePlain tag ex v args pos = .ok (a2, p2)) : keysNodup p2 := by
  have hemit : ∀ (arg : String),
      Except.ok (ε := MErr)
          (emitArg (goAtoi tag).isSome ((goAtoi tag).getD 0) args pos arg) =
        .ok (a2, p2) → keysNodup p2 := by
    intro arg hh
    have h2 := Except.ok.inj hh
    have := emitArg_keysNodup (goAtoi tag).isSome ((goAtoi tag).getD 0)
      args pos arg hnd
    rw [h2] at this
    exact this
  unfold encodePlain at h
  split at h
  · cases h; exact hnd
  · split at h
    · cases h; exact hnd
    · cases v with
      | bool b => exact hemit _ h
      | boolPtr p =>
        cases p with
        | none => simp at h
        | some b => exact hemit _ h
      | int n => exact hemit _ h
      | intPtr p =>
        cases p with
        | none => simp at h
        | some n => exact hemit _ h
      | str s => exact hemit _ h
      | strPtr p =>
        cases p with
        | none => simp at h
        | some s => exact hemit _ h
      | strList l =>
        simp only at h
        split at h
        · cases h
          exact keysNodup_foldl_posInsert l pos _ hnd
        · cases h
          exact hnd
      | other kind z textq =>
        cases textq with
        | some t => exact hemit _ h
        | none => simp at h

theorem marshalFields_keysNodup :
    ∀ (fields : List Field) (args : List String)
      (pos : List (Int × String)) (a2 : List String)
      (p2 : List (Int × String)), keysNodup pos →
      marshalFields fields args pos = .ok (a2, p2) → keysNodup p2 := by
  intro fields
  induction fields with
  | nil =>
    intro args pos a2 p2 hnd h
    simp only [marshalFields, Except.ok.injEq, Prod.mk.injEq] at h
    rw [← h.2]
    exact hnd
  | cons f rest ih =>
    intro args pos a2 p2 hnd h
    cases f with
    | embedded t e fs =>
      rw [marshalFields_embedded] at h
      cases hM : MarshalArgs fs with
      | error e2 => rw [hM] at h; simp at h
      | ok sub => rw [hM] at h; exact ih _ _ _ _ hnd h
    | plain t e v =>
      simp only [marshalFields] at h
      cases he : encodePlain t e v args pos with
      | error e2 => rw [he] at h; simp at h
      | ok q =>
        obtain ⟨a3, p3⟩ := q
        rw [he] at h
        exact ih _ _ _ _ (encodePlain_keysNodup t e v args pos a3 p3 hnd he) h

/-! ## The flattening loop -/

theorem orderedPosArgs_guard_iff (m : List (Int × String)) :
    (m.all (fun p => 0 ≤ p.1 ∧ p.1 < (m.length : Int)) = true) ↔
    (∀ p ∈ m, 0 ≤ p.1 ∧ p.1 < (m.length : Int)) := by
  simp [List.all_eq_true]

theorem foldlSet_length (m : List (Int × String)) (acc : List String) :
    (m.foldl (fun a p => a.set p.1.toNat p.2) acc).length = acc.length := by
  induction m generalizing acc with
  | nil => rfl
  | cons p rest ih => rw [List.foldl_cons, ih, List.length_set]

theorem foldlSet_getElem_not_mem (m : List (Int × String))
    (acc : List String) (j : Nat) (hj : ∀ p ∈ m, p.1.toNat ≠ j) :
    (m.foldl (fun a p => a.set p.1.toNat p.2) acc)[j]? = acc[j]? := by
  induction m generalizing acc with
  | nil => rfl
  | cons p rest ih =>
    rw [List.foldl_cons, ih _ (fun q hq => hj q (List.mem_cons_of_mem p hq)),
      List.getElem?_set_ne (hj p (List.mem_cons_self p rest))]

theorem foldlSet_getElem_mem (m : List (Int × String)) :
    ∀ (acc : List String) (k : Int) (v : String), keysNodup m →
      (∀ p ∈ m, 0 ≤ p.1) → (k, v) ∈ m → k.toNat < acc.length →
      (m.foldl (fun a p => a.set p.1.toNat p.2) acc)[k.toNat]? = some v := by
  induction m with
  | nil =>
    intro acc k v _ _ hmem
    simp at hmem
  | cons p rest ih =>
    intro acc k v hnd hpos hmem hlt
    have hnd2 : keysNodup rest := by
      unfold keysNodup at hnd ⊢
      simp only [List.map_cons, List.nodup_cons] at hnd
      exact hnd.2
    rw [List.foldl_cons]
    rcases List.mem_cons.mp hmem with heq | hmem2
    · obtain rfl : p = (k, v) := heq.symm
      rw [foldlSet_getElem_not_mem rest _ _ ?_]
      · exact List.getElem?_set_self hlt
      · intro q hq
        have hq1 : q.1 ≠ k := by
          intro hqk
          unfold keysNodup at hnd
          simp only [List.map_cons, List.nodup_cons] at hnd
          exact hnd.1 (List.mem_map.mpr ⟨q, hq, hqk⟩)
        have h0q : 0 ≤ q.1 := hpos q (List.mem_cons_of_mem _ hq)
        have h0k : 0 ≤ (k, v).1 := hpos (k, v) (List.mem_cons_self _ rest)
        simp only at h0k
        omega
    · exact ih (acc.set p.1.toNat p.2) k v hnd2
        (fun q hq => hpos q (List.mem_cons_of_mem p hq)) hmem2
        (by rwa [List.length_set])

/-- When the flattening loop succeeds, the output has one slot per map
entry and carries each written value at its slot index. -/
theorem orderedPosArgs_spec (m : List (Int × String)) (flat : List String)
    (hnd : keysNodup m) (h : orderedPosArgs m = some flat) :
    flat.length = m.length ∧ ∀ p ∈ m, flat[p.1.toNat]? = some p.2 := by
  unfold orderedPosArgs at h
  split at h
  · rename_i hall
    rw [orderedPosArgs_guard_iff] at hall
    have hflat := Option.some.inj h
    constructor
    · rw [← hflat, foldlSet_length, List.length_replicate]
    · intro p hp
      rw [← hflat]
      have h1 := (hall p hp).1
      have h2 := (hall p hp).2
      exact foldlSet_getElem_mem m (List.replicate m.length "") p.1 p.2 hnd
        (fun q hq => (hall q hq).1) (by simpa using hp)
        (by rw [List.length_replicate]; omega)
  · exact absurd h (by simp)

/-- The gap condition: the flattening loop panics exactly when a written
slot index falls outside `[0, len)`. -/
theorem orderedPosArgs_none_iff (m : List (Int × String)) :
    orderedPosArgs m = none ↔ ∃ p ∈ m, p.1 < 0 ∨ (m.length : Int) ≤ p.1 := by
  unfold orderedPosArgs
  split
  · rename_i hall
    rw [orderedPosArgs_guard_iff] at hall
    simp only [reduceCtorEq, false_iff]
    intro ⟨p, hp, hbad⟩
    have := hall p hp
    omega
  · rename_i hall
    simp only [true_iff]
    rw [show (¬(m.all (fun p => 0 ≤ p.1 ∧ p.1 < (m.length : Int)) = true)) ↔
        ¬(∀ p ∈ m, 0 ≤ p.1 ∧ p.1 < (m.length : Int)) from
      not_congr (orderedPosArgs_guard_iff m)] at hall
    push_neg at hall
    obtain ⟨p, hp, hbad⟩ := hall
    exact ⟨p, hp, by omega⟩

/-- The result of the flattening loop does not depend on the enumeration
order of the (distinct-keyed) map entries: every write lands at its own
fixed index. -/
theorem orderedPosArgs_perm (m m2 : List (Int × String)) (hnd : keysNodup m)
    (hp : m.Perm m2) : orderedPosArgs m = orderedPosArgs m2 := by
  have hnd2 : keysNodup m2 := (hp.map Prod.fst).nodup hnd
  have hlen := hp.length_eq
  by_cases hall : ∀ p ∈ m, 0 ≤ p.1 ∧ p.1 < (m.length : Int)
  · have hall2 : ∀ p ∈ m2, 0 ≤ p.1 ∧ p.1 < (m2.length : Int) := by
      intro p hp2
      rw [← hlen]
      exact hall p (hp.mem_iff.mpr hp2)
    unfold orderedPosArgs
    rw [if_pos ((orderedPosArgs_guard_iff m).mpr hall),
      if_pos ((orderedPosArgs_guard_iff m2).mpr hall2)]
    apply congrArg some
    apply List.ext_getElem?
    intro j
    by_cases hex : ∃ v, ((j : Int), v) ∈ m
    · obtain ⟨v, hv⟩ := hex
      have hb1 : ((j : Int)).toNat < (List.replicate m.length "").length := by
        rw [List.length_replicate]
        have := (hall _ hv).2
        omega
      have hb2 : ((j : Int)).toNat < (List.replicate m2.length "").length := by
        rw [List.length_replicate, ← hlen]
        have := (hall _ hv).2
        omega
      have e1 := foldlSet_getElem_mem m (List.replicate m.length "")
        (j : Int) v hnd (fun q hq => (hall q hq).1) hv hb1
      have e2 := foldlSet_getElem_mem m2 (List.replicate m2.length "")
        (j : Int) v hnd2 (fun q hq => (hall2 q hq).1) (hp.mem_iff.mp hv) hb2
      simp only [Int.toNat_ofNat] at e1 e2
      rw [e1, e2]
    · have hnotm : ∀ p ∈ m, p.1.toNat ≠ j := by
        intro p hp2 hc
        apply hex
        refine ⟨p.2, ?_⟩
        have h0 : 0 ≤ p.1 := (hall p hp2).1
        have : p.1 = (j : Int) := by omega
        rw [← this]
        exact hp2
      rw [foldlSet_getElem_not_mem m _ j hnotm,
        foldlSet_getElem_not_mem m2 _ j
          (fun q hq => hnotm q (hp.mem_iff.mpr hq)),
        List.getElem?_replicate, List.getElem?_replicate, hlen]
  · have hall2 : ¬ ∀ p ∈ m2, 0 ≤ p.1 ∧ p.1 < (m2.length : Int) := by
      intro hc
      apply hall
      intro p hp2
      rw [hlen]
      exact hc p (hp.mem_iff.mp hp2)
    unfold orderedPosArgs
    rw [if_neg (fun hc => hall ((orderedPosArgs_guard_iff m).mp hc)),
      if_neg (fun hc => hall2 ((orderedPosArgs_guard_iff m2).mp hc))]

/-! ## Ascending reading of the positional map -/

theorem lookup_eq_some_of_mem (m : List (Int × String)) :
    ∀ (k : Int) (v : String), keysNodup m → (k, v) ∈ m →
      List.lookup k m = some v := by
  induction m with
  | nil => intro k v _ hmem; simp at hmem
  | cons p rest ih =>
    intro k v hnd hmem
    obtain ⟨k2, v2⟩ := p
    have hnd2 : keysNodup rest := by
      unfold keysNodup at hnd ⊢
      simp only [List.map_cons, List.nodup_cons] at hnd
      exact hnd.2
    rcases List.mem_cons.mp hmem with heq | hmem2
    · obtain ⟨rfl, rfl⟩ := Prod.mk.injEq .. |>.mp heq.symm |>.imp Eq.symm Eq.symm
      rw [List.lookup_cons]
      have hb : (k == k) = true := by simp
      rw [hb]
    · have hne : k ≠ k2 := by
        intro hc
        unfold keysNodup at hnd
        simp only [List.map_cons, List.nodup_cons] at hnd
        exact hnd.1 (List.mem_map.mpr ⟨(k, v), hmem2, by simp [hc]⟩)
      rw [List.lookup_cons]
      have hb : (k == k2) = false := by simp [hne]
      rw [hb]
      exact ih k v hnd2 hmem2

theorem foldlMax_init_le (m : List (Int × String)) :
    ∀ (a : Int), a ≤ m.foldl (fun x p => max x p.1) a := by
  induction m with
  | nil => intro a; simp
  | cons p rest ih =>
    intro a
    rw [List.foldl_cons]
    exact le_trans (le_max_left a p.1) (ih (max a p.1))

theorem le_maxKey (m : List (Int × String)) :
    ∀ (a : Int) (p : Int × String), p ∈ m →
      p.1 ≤ m.foldl (fun x q => max x q.1) a := by
  induction m with
  | nil => intro a p hp; simp at hp
  | cons q rest ih =>
    intro a p hp
    rw [List.foldl_cons]
    rcases List.mem_cons.mp hp with heq | hmem
    · rw [heq]
      exact le_trans (le_max_right a q.1) (foldlMax_init_le rest _)
    · exact ih (max a q.1) p hmem

theorem maxKey_lt (m : List (Int × String)) :
    ∀ (a b : Int), a < b → (∀ p ∈ m, p.1 < b) →
      m.foldl (fun x q => max x q.1) a < b := by
  induction m with
  | nil => intro a b hab _; simpa using hab
  | cons q rest ih =>
    intro a b hab hall
    rw [List.foldl_cons]
    exact ih (max a q.1) b
      (max_lt hab (hall q (List.mem_cons_self q rest)))
      (fun p hp => hall p (List.mem_cons_of_mem q hp))

/-- Pigeonhole: distinct keys, all inside `[0, len)`, as many as `len` —
so every index below `len` is populated. -/
theorem keys_coverage (m : List (Int × String)) (hnd : keysNodup m)
    (hall : ∀ p ∈ m, 0 ≤ p.1 ∧ p.1 < (m.length : Int)) :
    ∀ j : Nat, j < m.length → ∃ v, ((j : Int), v) ∈ m := by
  intro j hj
  have hkeysnd : ((m.map Prod.fst).map Int.toNat).Nodup := by
    apply (List.nodup_map_iff_inj_on hnd).mpr
    intro x hx y hy hxy
    rw [List.mem_map] at hx hy
    obtain ⟨p, hp, rfl⟩ := hx
    obtain ⟨q, hq, rfl⟩ := hy
    have h1 := (hall p hp).1
    have h2 := (hall q hq).1
    omega
  have hsub : ((m.map Prod.fst).map Int.toNat).toFinset ⊆
      Finset.range m.length := by
    intro x hx
    rw [List.mem_toFinset, List.mem_map] at hx
    obtain ⟨k, hk, rfl⟩ := hx
    rw [List.mem_map] at hk
    obtain ⟨p, hp, rfl⟩ := hk
    rw [Finset.mem_range]
    have h1 := (hall p hp).1
    have h2 := (hall p hp).2
    omega
  have hcard : ((m.map Prod.fst).map Int.toNat).toFinset.card =
      m.length := by
    rw [List.toFinset_card_of_nodup hkeysnd]
    simp
  have heq : ((m.map Prod.fst).map Int.toNat).toFinset =
      Finset.range m.length :=
    Finset.eq_of_subset_of_card_le hsub
      (by rw [hcard, Finset.card_range])
  have hjmem : j ∈ ((m.map Prod.fst).map Int.toNat).toFinset := by
    rw [heq, Finset.mem_range]
    exact hj
  rw [List.mem_toFinset, List.mem_map] at hjmem
  obtain ⟨k, hk, rfl⟩ := hjmem
  rw [List.mem_map] at hk
  obtain ⟨p, hp, rfl⟩ := hk
  have h1 := (hall p hp).1
  refine ⟨p.2, ?_⟩
  have : ((p.1.toNat : Nat) : Int) = p.1 := by omega
  rw [this]
  simpa using hp

/-- When the flattening loop succeeds, its output is precisely the
spec-described ascending read of the positional map. -/
theorem orderedPosArgs_eq_specPosRead (m : List (Int × String))
    (flat : List String) (hnd : keysNodup m)
    (h : orderedPosArgs m = some flat) : flat = specPosRead m := by
  by_cases hm : m = []
  · subst hm
    have : flat = [] := by
      have : orderedPosArgs [] = some [] := rfl
      rw [this] at h
      exact (Option.some.inj h).symm
    rw [this]
    rfl
  · have hall : ∀ p ∈ m, 0 ≤ p.1 ∧ p.1 < (m.length : Int) := by
      by_contra hc
      push_neg at hc
      obtain ⟨p, hp, hbad⟩ := hc
      have : orderedPosArgs m = none := by
        rw [orderedPosArgs_none_iff]
        exact ⟨p, hp, by omega⟩
      rw [this] at h
      exact absurd h (by simp)
    obtain ⟨hlen, hmem⟩ := orderedPosArgs_spec m flat hnd h
    have hlenpos : 0 < m.length := by
      cases m with
      | nil => exact absurd rfl hm
      | cons _ _ => simp
    have hmaxlt : maxKey m < (m.length : Int) := by
      unfold maxKey
      exact maxKey_lt m 0 _ (by exact_mod_cast hlenpos)
        (fun p hp => (hall p hp).2)
    have hmax0 : 0 ≤ maxKey m := foldlMax_init_le m 0
    have hmaxge : ((m.length : Int) - 1) ≤ maxKey m := by
      obtain ⟨v, hv⟩ := keys_coverage m hnd hall (m.length - 1) (by omega)
      have := le_maxKey m 0 (((m.length - 1 : Nat) : Int), v) hv
      unfold maxKey
      simp only at this
      omega
    have hsize : (maxKey m).toNat + 1 = m.length := by omega
    unfold specPosRead
    rw [if_neg (by simpa using hm), hsize]
    apply List.ext_getElem?
    intro j
    by_cases hj : j < m.length
    · obtain ⟨v, hv⟩ := keys_coverage m hnd hall j hj
      have hflatj : flat[j]? = some v := by
        have := hmem ((j : Int), v) hv
        simpa using this
      rw [hflatj]
      rw [List.getElem?_map, List.getElem?_range hj]
      have hlk := lookup_eq_some_of_mem m ((j : Nat) : Int) v hnd hv
      simp [Int.ofNat_eq_natCast, hlk]
    · rw [List.getElem?_eq_none (by omega), List.getElem?_eq_none (by simp; omega)]

/-! ## The named stream -/

theorem emitArg_fst_pos (k : Int) (args : List String)
    (pos : List (Int × String)) (arg : String) :
    (emitArg true k args pos arg).1 = args := by
  unfold emitArg
  split
  · rfl
  · simp

theorem emitArg_fst_named (k : Int) (args : List String)
    (pos : List (Int × String)) (arg : String) (h : arg ≠ "") :
    (emitArg false k args pos arg).1 = args ++ [arg] := by
  unfold emitArg
  rw [if_neg h]
  simp

theorem emitArg_fst_empty (isPos : Bool) (k : Int) (args : List String)
    (pos : List (Int × String)) :
    (emitArg isPos k args pos "").1 = args := by
  unfold emitArg
  simp

/-- The `args` accumulator grows by exactly the named tokens the spec
assigns to the field. -/
theorem encodePlain_args_spec (tag : String) (ex : Bool) (v : Value)
    (args : List String) (pos : List (Int × String)) (a2 : List String)
    (p2 : List (Int × String))
    (h : encodePlain tag ex v args pos = .ok (a2, p2)) :
    a2 = args ++ specNamedTokensOfField (.plain tag ex v) := by
  have hfst : ∀ (x : List String × List (Int × String)),
      Except.ok (ε := MErr) x = .ok (a2, p2) → a2 = x.1 := by
    intro x hx
    rw [Except.ok.inj hx]
  by_cases ht : tag = ""
  · rw [encodePlain_skip _ _ _ _ _ (Or.inl ht)] at h
    rw [hfst _ h]
    simp [specNamedTokensOfField, ht]
  by_cases hex : ex = false
  · rw [encodePlain_skip _ _ _ _ _ (Or.inr (Or.inl hex))] at h
    rw [hfst _ h]
    simp [specNamedTokensOfField, hex]
  by_cases hz : v.isZero = true
  · rw [encodePlain_skip _ _ _ _ _ (Or.inr (Or.inr hz))] at h
    rw [hfst _ h]
    simp [specNamedTokensOfField, hz]
  rw [Bool.not_eq_true] at hz
  unfold encodePlain at h
  rw [if_neg ht, if_neg (by simp [hex, hz])] at h
  simp only [specNamedTokensOfField]
  by_cases hp : (goAtoi tag).isSome = true
  · rw [if_pos (Or.inr (Or.inl hp))]
    rw [List.append_nil]
    cases v with
    | bool b => rw [hfst _ h, hp, emitArg_fst_pos]
    | boolPtr p =>
      cases p with
      | none => simp [Value.isZero] at hz
      | some b => rw [hfst _ h, hp, emitArg_fst_pos]
    | int n => rw [hfst _ h, hp, emitArg_fst_pos]
    | intPtr p =>
      cases p with
      | none => simp [Value.isZero] at hz
      | some n => rw [hfst _ h, hp, emitArg_fst_pos]
    | str s => rw [hfst _ h, hp, emitArg_fst_pos]
    | strPtr p =>
      cases p with
      | none => simp [Value.isZero] at hz
      | some s => rw [hfst _ h, hp, emitArg_fst_pos]
    | strList l =>
      rw [hp] at h
      simp only [if_true] at h
      exact hfst _ h
    | other kind z textq =>
      cases textq with
      | some t => rw [hfst _ h, hp, emitArg_fst_pos]
      | none => simp at h
  · rw [Bool.not_eq_true] at hp
    rw [if_neg (by simp [ht, hp, hex, hz])]
    cases v with
    | bool b =>
      have hb : b = true := by simpa [Value.isZero] using hz
      subst hb
      rw [hfst _ h, hp]
      simp only [Bool.false_eq_true, if_false, if_true]
      rw [emitArg_fst_named _ _ _ _ ht]
    | boolPtr p =>
      cases p with
      | none => simp [Value.isZero] at hz
      | some b =>
        cases b with
        | true =>
          rw [hfst _ h, hp]
          simp only [Bool.false_eq_true, if_false, if_true]
          rw [emitArg_fst_named _ _ _ _ ht]
        | false =>
          rw [hfst _ h, hp]
          simp only [Bool.false_eq_true, if_false]
          rw [emitArg_fst_empty]
          simp
    | int n =>
      rw [hfst _ h, hp]
      simp only [Bool.false_eq_true, if_false]
      rw [emitArg_fst_named _ _ _ _ (tag_eq_ne_empty tag _)]
    | intPtr p =>
      cases p with
      | none => simp [Value.isZero] at hz
      | some n =>
        rw [hfst _ h, hp]
        simp only [Bool.false_eq_true, if_false]
        rw [emitArg_fst_named _ _ _ _ (tag_eq_ne_empty tag _)]
    | str s =>
      rw [hfst _ h, hp]
      simp only [Bool.false_eq_true, if_false]
      rw [emitArg_fst_named _ _ _ _ (tag_eq_ne_empty tag _)]
    | strPtr p =>
      cases p with
      | none => simp [Value.isZero] at hz
      | some s =>
        rw [hfst _ h, hp]
        simp only [Bool.false_eq_true, if_false]
        rw [emitArg_fst_named _ _ _ _ (tag_eq_ne_empty tag _)]
    | strList l =>
      rw [hp] at h
      simp only [Bool.false_eq_true, if_false] at h
      exact hfst _ h
    | other kind z textq =>
      cases textq with
      | some t =>
        rw [hfst _ h, hp]
        simp only [Bool.false_eq_true, if_false]
        rw [emitArg_fst_named _ _ _ _ (tag_eq_ne_empty tag _)]
      | none => simp at h

/-- Over a struct of plain fields, the `args` accumulator collects the
spec-described named tokens in declaration order. -/
theorem marshalFields_args_plain :
    ∀ (fields : List Field), (∀ f ∈ fields, f.isPlain = true) →
      ∀ (args : List String) (pos : List (Int × String)) (a2 : List String)
        (p2 : List (Int × String)),
        marshalFields fields args pos = .ok (a2, p2) →
        a2 = args ++ specNamedTokens fields := by
  intro fields
  induction fields with
  | nil =>
    intro _ args pos a2 p2 h
    simp only [marshalFields, Except.ok.injEq, Prod.mk.injEq] at h
    rw [← h.1]
    simp [specNamedTokens]
  | cons f rest ih =>
    intro hplain args pos a2 p2 h
    cases f with
    | embedded t e fs =>
      have := hplain (.embedded t e fs) (List.mem_cons_self _ rest)
      simp [Field.isPlain] at this
    | plain t e v =>
      simp only [marshalFields] at h
      cases he : encodePlain t e v args pos with
      | error e2 => rw [he] at h; simp at h
      | ok q =>
        obtain ⟨a3, p3⟩ := q
        rw [he] at h
        have h3 := encodePlain_args_spec t e v args pos a3 p3 he
        have h4 := ih (fun g hg => hplain g (List.mem_cons_of_mem _ hg))
          a3 p3 a2 p2 h
        rw [h4, h3]
        simp [specNamedTokens, List.append_assoc]

/-- Running a single plain field that leaves the positional map empty. -/
theorem MarshalArgs_single_plain (tag : String) (ex : Bool) (v : Value)
    (a2 : List String) (h : encodePlain tag ex v [] [] = .ok (a2, [])) :
    MarshalArgs [.plain tag ex v] = .ok a2 := by
  rw [MarshalArgs]
  simp only [marshalFields]
  rw [h]
  simp only [marshalFields]
  rw [show orderedPosArgs [] = some [] from rfl]
  simp

/-! ## Claim theorems -/

/-- C5: marshaling the example configuration — an embedded credentials
sub-structure with user `"root"` (and an unset password), a non-nil
yes/no pointer set to true tagged `--verbose`, positional text fields at
indices 1 and 0, and a named sequence tagged `--repeated` — returns
exactly the six expected tokens in order. -/
theorem example_scenario :
    MarshalArgs
      [.embedded "" true [.plain "--user" true (.str "root"),
         .plain "--password" true (.str "")],
       .plain "--verbose" true (yesNoPtrValue Yes),
       .plain "1" true (.str "/tmp/foo"),
       .plain "0" true (.str "/tmp/bar"),
       .plain "--repeated" true (.strList ["foo", "bar"])] =
      .ok ["--user=root", "--verbose=y", "--repeated=foo", "--repeated=bar",
        "/tmp/bar", "/tmp/foo"] :=
  MarshalArgsF_sound 8 _ _ (by decide)

/-- C1 counterexample: a configuration whose embedded sub-structure holds
a positional field (slot 0, value `"x"`) followed by a named field
`--n="v"` marshals to `["x", "--n=v"]`: the positional-field token
precedes the named token, contradicting the claimed universal
named-before-positional split. -/
theorem embedded_positional_precedes_named :
    MarshalArgs [.embedded "" true [.plain "0" true (.str "x")],
      .plain "--n" true (.str "v")] = .ok ["x", "--n=v"] ∧
    MarshalArgs [.embedded "" true [.plain "0" true (.str "x")],
      .plain "--n" true (.str "v")] ≠ .ok ["--n=v", "x"] := by
  have h1 : MarshalArgs [.embedded "" true [.plain "0" true (.str "x")],
      .plain "--n" true (.str "v")] = .ok ["x", "--n=v"] :=
    MarshalArgsF_sound 8 _ _ (by decide)
  exact ⟨h1, by rw [h1]; decide⟩

/-- C1 (amended): for a configuration object with no embedded
sub-structures, a successful `MarshalArgs` run returns exactly the named
tokens in field-declaration order followed by the positional tokens in
ascending slot-index order (an embedded sub-structure's output — its own
positional tokens included — is instead spliced into the named stream at
the embed point, which is what the counterexample exhibits). -/
theorem marshal_named_then_positional (fields : List Field)
    (hplain : fields.all Field.isPlain = true)
    (args : List String) (m : List (Int × String)) (out : List String)
    (h1 : marshalFields fields [] [] = .ok (args, m))
    (h2 : MarshalArgs fields = .ok out) :
    out = specNamedTokens fields ++ specPosRead m := by
  have hplain2 : ∀ f ∈ fields, f.isPlain = true := List.all_eq_true.mp hplain
  have hnd := marshalFields_keysNodup fields [] [] args m keysNodup_nil h1
  have hargs := marshalFields_args_plain fields hplain2 [] [] args m h1
  rw [MarshalArgs, h1] at h2
  have h2b : (match orderedPosArgs m with
      | some flat => Except.ok (args ++ flat)
      | none => Except.error MErr.indexOutOfRange) = Except.ok out := h2
  cases hf : orderedPosArgs m with
  | none => rw [hf] at h2b; simp at h2b
  | some flat =>
    rw [hf] at h2b
    have h3 : Except.ok (ε := MErr) (args ++ flat) = .ok out := h2b
    have hout := (Except.ok.inj h3).symm
    rw [hout, hargs, orderedPosArgs_eq_specPosRead m flat hnd hf]
    simp

/-- C1 witness: a three-field interleaving (positional slot 1, named,
positional slot 0) marshals to the named token followed by the two
positional tokens in slot order. -/
theorem marshal_named_then_positional_witness :
    (["--n=v", "a", "b"] : List String) =
      specNamedTokens [.plain "1" true (.str "b"),
        .plain "--n" true (.str "v"), .plain "0" true (.str "a")] ++
      specPosRead [(1, "b"), (0, "a")] :=
  marshal_named_then_positional
    [.plain "1" true (.str "b"), .plain "--n" true (.str "v"),
      .plain "0" true (.str "a")] (by decide) ["--n=v"] [(1, "b"), (0, "a")]
    ["--n=v", "a", "b"] (marshalFieldsF_sound 8 _ _ _ _ (by decide))
    (MarshalArgsF_sound 8 _ _ (by decide))

/-- C10: `MarshalArgs` is a pure function of its input, and in particular
the enumeration order of the positional-slot map during flattening cannot
change the result: flattening any permutation of the collected slot map
produces the same output, because every write targets its own fixed
numeric index. -/
theorem marshal_deterministic (fields : List Field) (args : List String)
    (m m2 : List (Int × String))
    (h : marshalFields fields [] [] = .ok (args, m)) (hp : m.Perm m2) :
    MarshalArgs fields =
      match orderedPosArgs m2 with
      | some flat => .ok (args ++ flat)
      | none => .error .indexOutOfRange := by
  have hnd := marshalFields_keysNodup fields [] [] args m keysNodup_nil h
  rw [MarshalArgs, h]
  show (match orderedPosArgs m with
    | some flat => Except.ok (args ++ flat)
    | none => Except.error MErr.indexOutOfRange) =
    match orderedPosArgs m2 with
    | some flat => Except.ok (args ++ flat)
    | none => Except.error MErr.indexOutOfRange
  rw [orderedPosArgs_perm m m2 hnd hp]

/-- C10 witness: flattening the slot map of a two-positional-field struct
in reversed enumeration order yields the same output. -/
theorem marshal_deterministic_witness :
    MarshalArgs [.plain "0" true (.str "a"), .plain "1" true (.str "b")] =
      match orderedPosArgs [(1, "b"), (0, "a")] with
      | some flat => .ok (([] : List String) ++ flat)
      | none => .error .indexOutOfRange :=
  marshal_deterministic [.plain "0" true (.str "a"),
    .plain "1" true (.str "b")] [] [(0, "a"), (1, "b")] [(1, "b"), (0, "a")]
    (marshalFieldsF_sound 8 _ _ _ _ (by decide)) (by decide)

/-- C3 counterexample: a single positional field declared at slot 1
leaves slot 0 unwritten; `MarshalArgs` aborts with the out-of-range
panic instead of returning `["", "x"]` with an empty-string token at the
gap. -/
theorem positional_gap_not_empty_filled :
    MarshalArgs [.plain "1" true (.str "x")] = .error .indexOutOfRange ∧
    MarshalArgs [.plain "1" true (.str "x")] ≠ .ok ["", "x"] := by
  have h1 : MarshalArgs [.plain "1" true (.str "x")] =
      .error .indexOutOfRange := MarshalArgsF_sound 8 _ _ (by decide)
  exact ⟨h1, by rw [h1]; decide⟩

/-- C3 (amended): the flattened positional buffer is sized by the number
of written slots, not by highest-index-plus-one.  Whenever some written
index falls outside `[0, count)` — in particular whenever the written
indices leave a gap — `MarshalArgs` aborts with the index-out-of-range
panic; when the written indices are exactly `0..count-1`, flattening
succeeds and places every token at its own slot index. -/
theorem positional_gap_aborts :
    (∀ (fields : List Field) (args : List String)
      (m : List (Int × String)),
      marshalFields fields [] [] = .ok (args, m) →
      (∃ p ∈ m, p.1 < 0 ∨ (m.length : Int) ≤ p.1) →
      MarshalArgs fields = .error .indexOutOfRange) ∧
    (∀ (m : List (Int × String)), keysNodup m →
      (∀ p ∈ m, 0 ≤ p.1 ∧ p.1 < (m.length : Int)) →
      ∃ flat, orderedPosArgs m = some flat ∧ flat.length = m.length ∧
        ∀ p ∈ m, flat[p.1.toNat]? = some p.2) := by
  constructor
  · intro fields args m h hgap
    rw [MarshalArgs, h]
    show (match orderedPosArgs m with
      | some flat => Except.ok (args ++ flat)
      | none => Except.error MErr.indexOutOfRange) =
      Except.error MErr.indexOutOfRange
    rw [(orderedPosArgs_none_iff m).mpr hgap]
  · intro m hnd hall
    cases hf : orderedPosArgs m with
    | none =>
      rw [orderedPosArgs_none_iff] at hf
      obtain ⟨p, hp, hb⟩ := hf
      have := hall p hp
      omega
    | some flat =>
      obtain ⟨hl, hm⟩ := orderedPosArgs_spec m flat hnd hf
      exact ⟨flat, rfl, hl, hm⟩

/-- C3 witness: a positional field at slot 2 with slots 0 and 1 never
written aborts the marshaler. -/
theorem positional_gap_aborts_witness :
    MarshalArgs [.plain "2" true (.str "y")] = .error .indexOutOfRange :=
  positional_gap_aborts.1 [.plain "2" true (.str "y")] [] [(2, "y")]
    (marshalFieldsF_sound 8 _ _ _ _ (by decide)) (by decide)

/-- C6 counterexample: the marshaler can also abort without any
unsupported-shape field — a positional-slot gap aborts it with the
out-of-range panic — so the unsupported-shape panic is not the only
failure the marshaler itself can raise. -/
theorem abort_not_only_unsupported :
    MarshalArgs [.plain "5" true (.str "w")] = .error .indexOutOfRange ∧
    MarshalArgs [.plain "5" true (.str "w")] ≠
      .error (.unsupportedType "string") := by
  have h1 : MarshalArgs [.plain "5" true (.str "w")] =
      .error .indexOutOfRange := MarshalArgsF_sound 8 _ _ (by decide)
  exact ⟨h1, by rw [h1]; decide⟩

/-- C6 (amended): an annotated, exported, non-zero field of an
unsupported shape with no text-marshaling capability aborts `MarshalArgs`
with a message identifying the field's kind; this is however not the only
failure the marshaler can raise — non-contiguous positional slot indices
also abort it (with the out-of-range panic). -/
theorem unsupported_shape_aborts :
    (∀ (tag kind : String), tag ≠ "" →
      MarshalArgs [.plain tag true (.other kind false none)] =
        .error (.unsupportedType kind)) ∧
    MarshalArgs [.plain "3" true (.str "z")] = .error .indexOutOfRange := by
  constructor
  · intro tag kind ht
    have he : encodePlain tag true (.other kind false none) [] [] =
        .error (.unsupportedType kind) := by
      unfold encodePlain
      rw [if_neg ht]
      simp [Value.isZero]
    rw [MarshalArgs]
    simp only [marshalFields]
    rw [he]
  · exact MarshalArgsF_sound 8 _ _ (by decide)

/-- C6 witness: a tagged, exported channel-kinded field with no text
rendering aborts with the kind-identifying message. -/
theorem unsupported_shape_aborts_witness :
    MarshalArgs [.plain "--bad" true (.other "chan" false none)] =
      .error (.unsupportedType "chan") :=
  unsupported_shape_aborts.1 "--bad" "chan" (by decide)

/-- C8: an embedded sub-structure's contribution appears in the output at
exactly the position the sub-structure occupies in the parent's
declaration order — the fields before it are processed first, then the
embedded structure's whole marshaled output is spliced into the named
stream, then the fields after it continue from that state — and the
embedded field's own tag and exportedness are never consulted (visibility
is checked only for non-embedded fields). -/
theorem embedded_composition :
    (∀ (pre post sub : List Field) (tag : String) (ex : Bool)
      (args : List String) (posArgs : List (Int × String)),
      marshalFields (pre ++ .embedded tag ex sub :: post) args posArgs =
        match marshalFields pre args posArgs with
        | .error e => .error e
        | .ok (a, p) =>
          match MarshalArgs sub with
          | .error e => .error e
          | .ok out => marshalFields post (a ++ out) p) ∧
    (∀ (tag tag2 : String) (ex ex2 : Bool) (sub rest : List Field)
      (args : List String) (posArgs : List (Int × String)),
      marshalFields (.embedded tag ex sub :: rest) args posArgs =
        marshalFields (.embedded tag2 ex2 sub :: rest) args posArgs) := by
  constructor
  · intro pre post sub tag ex args posArgs
    rw [marshalFields_append]
    cases hm : marshalFields pre args posArgs with
    | error e => rfl
    | ok p =>
      obtain ⟨a, pmap⟩ := p
      show marshalFields (.embedded tag ex sub :: post) a pmap =
        match MarshalArgs sub with
        | .error e => .error e
        | .ok out => marshalFields post (a ++ out) pmap
      exact marshalFields_embedded tag ex sub post a pmap
  · intro tag tag2 ex ex2 sub rest args posArgs
    rw [marshalFields_embedded, marshalFields_embedded]

/-- C9: the unsupported-shape abort is raised only for a field that
carries a non-empty `arg` tag, is exported, and holds a non-zero value of
the no-text-marshaler `other` shape; an unexported or zero-valued field —
of any shape, the unsupported one included — is skipped before the shape
dispatch and can never trigger the abort. -/
theorem abort_requires_reached_field :
    (∀ (tag : String) (ex : Bool) (v : Value) (args : List String)
      (posArgs : List (Int × String)) (k : String),
      encodePlain tag ex v args posArgs = .error (.unsupportedType k) →
      tag ≠ "" ∧ ex = true ∧ v.isZero = false ∧ v = .other k false none) ∧
    (∀ (tag : String) (ex : Bool) (v : Value) (args : List String)
      (posArgs : List (Int × String)),
      (ex = false ∨ v.isZero = true) →
      encodePlain tag ex v args posArgs = .ok (args, posArgs)) := by
  constructor
  · intro tag ex v args posArgs k h
    by_cases ht : tag = ""
    · rw [encodePlain_skip _ _ _ _ _ (Or.inl ht)] at h
      simp at h
    by_cases hex : ex = false
    · rw [encodePlain_skip _ _ _ _ _ (Or.inr (Or.inl hex))] at h
      simp at h
    by_cases hz : v.isZero = true
    · rw [encodePlain_skip _ _ _ _ _ (Or.inr (Or.inr hz))] at h
      simp at h
    refine ⟨ht, by simpa using hex, by simpa using hz, ?_⟩
    rw [Bool.not_eq_true] at hz
    unfold encodePlain at h
    rw [if_neg ht, if_neg (by simp [hex, hz])] at h
    cases v with
    | bool b => simp at h
    | boolPtr p => cases p <;> simp at h
    | int n => simp at h
    | intPtr p => cases p <;> simp at h
    | str s => simp at h
    | strPtr p => cases p <;> simp at h
    | strList l =>
      simp only at h
      split at h <;> simp at h
    | other kind z textq =>
      cases textq with
      | some t => simp at h
      | none =>
        simp only [Except.error.injEq, MErr.unsupportedType.injEq] at h
        have hzv : z = false := by simpa [Value.isZero] using hz
        rw [h, hzv]
  · intro tag ex v args posArgs h
    exact encodePlain_skip _ _ _ _ _ (Or.inr h)

/-- C9 witness: a tagged, exported, non-zero channel-kinded field indeed
satisfies all three reach conditions when the abort fires. -/
theorem abort_requires_reached_field_witness :
    ("--x" : String) ≠ "" ∧ (true : Bool) = true ∧
    Value.isZero (.other "chan" false none) = false ∧
    Value.other "chan" false none = .other "chan" false none :=
  abort_requires_reached_field.1 "--x" true (.other "chan" false none)
    [] [] "chan" (by decide)

/-- C4 counterexample: a positional value-typed boolean set to `false` is
the zero value of its shape, so it is skipped entirely — `MarshalArgs`
returns `[]`, not the claimed `["false"]` token. -/
theorem positional_false_bool_omitted :
    MarshalArgs [.plain "0" true (.bool false)] = .ok [] ∧
    MarshalArgs [.plain "0" true (.bool false)] ≠ .ok ["false"] := by
  have h1 : MarshalArgs [.plain "0" true (.bool false)] = .ok [] :=
    MarshalArgsF_sound 8 _ _ (by decide)
  exact ⟨h1, by rw [h1]; decide⟩

/-- C4 (amended): a named boolean field (value or pointer form) set to
true produces exactly one token equal to its tag text and set to false
produces zero tokens; a positional pointer boolean produces `"true"` /
`"false"` according to its value, and a positional value-typed boolean
produces `"true"` when true but is omitted entirely when false (the
zero-value skip fires before the boolean dispatch). -/
theorem boolean_asymmetry :
    (∀ tag : String, tag ≠ "" → goAtoi tag = none →
      MarshalArgs [.plain tag true (.bool true)] = .ok [tag] ∧
      MarshalArgs [.plain tag true (.boolPtr (some true))] = .ok [tag] ∧
      MarshalArgs [.plain tag true (.bool false)] = .ok [] ∧
      MarshalArgs [.plain tag true (.boolPtr (some false))] = .ok []) ∧
    MarshalArgs [.plain "0" true (.bool true)] = .ok ["true"] ∧
    MarshalArgs [.plain "0" true (.boolPtr (some true))] = .ok ["true"] ∧
    MarshalArgs [.plain "0" true (.boolPtr (some false))] = .ok ["false"] ∧
    MarshalArgs [.plain "0" true (.bool false)] = .ok [] := by
  constructor
  · intro tag ht hatoi
    refine ⟨?_, ?_, ?_, ?_⟩
    · apply MarshalArgs_single_plain
      unfold encodePlain
      rw [if_neg ht]
      simp [Value.isZero, hatoi, emitArg, ht]
    · apply MarshalArgs_single_plain
      unfold encodePlain
      rw [if_neg ht]
      simp [Value.isZero, hatoi, emitArg, ht]
    · exact MarshalArgs_single_plain _ _ _ _
        (encodePlain_skip _ _ _ _ _ (Or.inr (Or.inr rfl)))
    · apply MarshalArgs_single_plain
      unfold encodePlain
      rw [if_neg ht]
      simp [Value.isZero, hatoi, emitArg]
  · exact ⟨MarshalArgsF_sound 8 _ _ (by decide),
      MarshalArgsF_sound 8 _ _ (by decide),
      MarshalArgsF_sound 8 _ _ (by decide),
      MarshalArgsF_sound 8 _ _ (by decide)⟩

/-- C4 witness: the named cases at the concrete tag `--v`. -/
theorem boolean_asymmetry_witness :
    MarshalArgs [.plain "--v" true (.bool true)] = .ok ["--v"] ∧
    MarshalArgs [.plain "--v" true (.boolPtr (some true))] = .ok ["--v"] ∧
    MarshalArgs [.plain "--v" true (.bool false)] = .ok [] ∧
    MarshalArgs [.plain "--v" true (.boolPtr (some false))] = .ok [] :=
  boolean_asymmetry.1 "--v" (by decide) (by decide)

/-- C7: the yes/no wrapper renders true as `"y"` and false as `"n"`; a
named field holding a non-nil pointer to it marshals to `tag=y` / `tag=n`
(never the bare-flag form, as the produced token always differs from the
bare tag); and the package exposes the ready-made pointer sentinels `Yes`
and `No` for the two constant values. -/
theorem yesno_rendering :
    YesNo.MarshalText true = "y" ∧ YesNo.MarshalText false = "n" ∧
    Yes = PtrTo (true : YesNo) ∧ No = PtrTo (false : YesNo) ∧
    (∀ tag : String, tag ≠ "" → goAtoi tag = none →
      MarshalArgs [.plain tag true (yesNoPtrValue Yes)] =
        .ok [tag ++ "=" ++ "y"] ∧
      MarshalArgs [.plain tag true (yesNoPtrValue No)] =
        .ok [tag ++ "=" ++ "n"] ∧
      tag ++ "=" ++ "y" ≠ tag ∧ tag ++ "=" ++ "n" ≠ tag) := by
  refine ⟨rfl, rfl, rfl, rfl, ?_⟩
  intro tag ht hatoi
  refine ⟨?_, ?_, ?_, ?_⟩
  · apply MarshalArgs_single_plain
    unfold encodePlain
    rw [if_neg ht]
    simp [Value.isZero, yesNoPtrValue, Yes, PtrTo, YesNo.MarshalText,
      hatoi, emitArg, tag_eq_ne_empty tag "y"]
  · apply MarshalArgs_single_plain
    unfold encodePlain
    rw [if_neg ht]
    simp [Value.isZero, yesNoPtrValue, No, PtrTo, YesNo.MarshalText,
      hatoi, emitArg, tag_eq_ne_empty tag "n"]
  · intro hc
    have hl := congrArg String.length hc
    rw [String.length_append, String.length_append] at hl
    have h1 : ("=" : String).length = 1 := rfl
    have h2 : ("y" : String).length = 1 := rfl
    omega
  · intro hc
    have hl := congrArg String.length hc
    rw [String.length_append, String.length_append] at hl
    have h1 : ("=" : String).length = 1 := rfl
    have h2 : ("n" : String).length = 1 := rfl
    omega

/-- C7 witness: the named yes/no cases at the concrete tag `--verbose`. -/
theorem yesno_rendering_witness :
    MarshalArgs [.plain "--verbose" true (yesNoPtrValue Yes)] =
      .ok ["--verbose" ++ "=" ++ "y"] ∧
    MarshalArgs [.plain "--verbose" true (yesNoPtrValue No)] =
      .ok ["--verbose" ++ "=" ++ "n"] ∧
    "--verbose" ++ "=" ++ "y" ≠ "--verbose" ∧
    "--verbose" ++ "=" ++ "n" ≠ "--verbose" :=
  yesno_rendering.2.2.2.2 "--verbose" (by decide) (by decide)

/-! ## Contribution analysis (C2) -/

theorem emitArg_ne_nil (isPos : Bool) (k : Int) (arg : String)
    (h : arg ≠ "") : emitArg isPos k [] [] arg ≠ ([], []) := by
  unfold emitArg
  rw [if_neg h]
  by_cases hp : isPos
  · simp [hp, posInsert]
  · simp [hp]

theorem posInsert_length_le (m : List (Int × String)) (k : Int)
    (v : String) : m.length ≤ (posInsert m k v).length := by
  unfold posInsert
  split
  · simp
  · simp

theorem foldl_posInsert_length (l : List String) :
    ∀ (m : List (Int × String)) (k : Int),
      m.length ≤
        ((l.foldl (fun acc s => (posInsert acc.1 acc.2 s, acc.2 + 1))
          (m, k)).1).length := by
  induction l with
  | nil => intro m k; simp
  | cons s rest ih =>
    intro m k
    simp only [List.foldl_cons]
    exact le_trans (posInsert_length_le m k s) (ih (posInsert m k s) (k + 1))

theorem emitsNothing_inv (v : Value) (isPos : Bool)
    (h : emitsNothing v isPos = true) :
    (v = .boolPtr (some false) ∧ isPos = false) ∨
    (∃ s, v = .strPtr (some s) ∧ s = "" ∧ isPos = true) ∨
    (∃ kind z s, v = .other kind z (some s) ∧ s = "" ∧ isPos = true) := by
  cases v with
  | boolPtr p =>
    match p, isPos with
    | some false, false => exact Or.inl ⟨rfl, rfl⟩
    | some false, true => simp [emitsNothing] at h
    | some true, _ => simp [emitsNothing] at h
    | none, _ => simp [emitsNothing] at h
  | strPtr p =>
    match p, isPos with
    | some s, true =>
      refine Or.inr (Or.inl ⟨s, rfl, ?_, rfl⟩)
      simpa [emitsNothing] using h
    | some s, false => simp [emitsNothing] at h
    | none, _ => simp [emitsNothing] at h
  | other kind z tq =>
    match tq, isPos with
    | some t, true =>
      refine Or.inr (Or.inr ⟨kind, z, t, rfl, ?_, rfl⟩)
      simpa [emitsNothing] using h
    | some t, false => simp [emitsNothing] at h
    | none, _ => simp [emitsNothing] at h
  | bool b => cases isPos <;> simp [emitsNothing] at h
  | int n => cases isPos <;> simp [emitsNothing] at h
  | intPtr p => cases isPos <;> simp [emitsNothing] at h
  | str s => cases isPos <;> simp [emitsNothing] at h
  | strList l => cases isPos <;> simp [emitsNothing] at h

/-- C2 counterexample: a field with a non-empty tag, exported, whose
value (a non-nil pointer to `false`) is not the zero value of its shape,
still contributes no token and no positional write — refuting the claimed
"if and only if". -/
theorem nonzero_field_no_token :
    encodePlain "--flag" true (.boolPtr (some false)) [] [] =
      .ok ([], []) ∧
    ("--flag" : String) ≠ "" ∧
    Value.isZero (.boolPtr (some false)) = false ∧
    MarshalArgs [.plain "--flag" true (.boolPtr (some false))] = .ok [] :=
  ⟨by decide, by decide, by decide, MarshalArgsF_sound 8 _ _ (by decide)⟩

/-- C2 (amended): a field produces no token and no positional-slot write
precisely when it lacks a non-empty `arg` tag, is unexported, holds the
zero value of its shape, or — the cases the original claim misses — its
rendered argument text is empty despite a non-zero value (a named pointer
to `false`, a positional pointer to `""`, and a positional custom value
rendering `""`). -/
theorem contribution_iff (tag : String) (ex : Bool) (v : Value) :
    encodePlain tag ex v [] [] = .ok ([], []) ↔
      (tag = "" ∨ ex = false ∨ v.isZero = true ∨
        emitsNothing v (goAtoi tag).isSome = true) := by
  constructor
  · intro h
    by_cases ht : tag = ""
    · exact Or.inl ht
    by_cases hex : ex = false
    · exact Or.inr (Or.inl hex)
    by_cases hz : v.isZero = true
    · exact Or.inr (Or.inr (Or.inl hz))
    refine Or.inr (Or.inr (Or.inr ?_))
    rw [Bool.not_eq_true] at hz
    unfold encodePlain at h
    rw [if_neg ht, if_neg (by simp [hex, hz])] at h
    cases v with
    | bool b =>
      have hb : b = true := by simpa [Value.isZero] using hz
      subst hb
      cases hpv : (goAtoi tag).isSome with
      | true =>
        have h2 := Except.ok.inj h
        simp only [hpv, if_true] at h2
        exact absurd h2 (emitArg_ne_nil true _ "true" (by decide))
      | false =>
        have h2 := Except.ok.inj h
        simp only [hpv, Bool.false_eq_true, if_false, if_true] at h2
        exact absurd h2 (emitArg_ne_nil false _ tag ht)
    | boolPtr p =>
      cases p with
      | none => simp [Value.isZero] at hz
      | some b =>
        cases b with
        | true =>
          cases hpv : (goAtoi tag).isSome with
          | true =>
            have h2 := Except.ok.inj h
            simp only [hpv, if_true] at h2
            exact absurd h2 (emitArg_ne_nil true _ "true" (by decide))
          | false =>
            have h2 := Except.ok.inj h
            simp only [hpv, Bool.false_eq_true, if_false, if_true] at h2
            exact absurd h2 (emitArg_ne_nil false _ tag ht)
        | false =>
          cases hpv : (goAtoi tag).isSome with
          | true =>
            have h2 := Except.ok.inj h
            simp only [hpv, if_true, Bool.false_eq_true, if_false] at h2
            exact absurd h2 (emitArg_ne_nil true _ "false" (by decide))
          | false => simp [emitsNothing]
    | int n =>
      cases hpv : (goAtoi tag).isSome with
      | true =>
        have h2 := Except.ok.inj h
        simp only [hpv, if_true] at h2
        exact absurd h2 (emitArg_ne_nil true _ _ (int_toString_ne_empty n))
      | false =>
        have h2 := Except.ok.inj h
        simp only [hpv, Bool.false_eq_true, if_false] at h2
        exact absurd h2 (emitArg_ne_nil false _ _ (tag_eq_ne_empty tag _))
    | intPtr p =>
      cases p with
      | none => simp [Value.isZero] at hz
      | some n =>
        cases hpv : (goAtoi tag).isSome with
        | true =>
          have h2 := Except.ok.inj h
          simp only [hpv, if_true] at h2
          exact absurd h2
            (emitArg_ne_nil true _ _ (int_toString_ne_empty n))
        | false =>
          have h2 := Except.ok.inj h
          simp only [hpv, Bool.false_eq_true, if_false] at h2
          exact absurd h2 (emitArg_ne_nil false _ _ (tag_eq_ne_empty tag _))
    | str s =>
      have hs : s ≠ "" := by simpa [Value.isZero] using hz
      cases hpv : (goAtoi tag).isSome with
      | true =>
        have h2 := Except.ok.inj h
        simp only [hpv, if_true] at h2
        exact absurd h2 (emitArg_ne_nil true _ s hs)
      | false =>
        have h2 := Except.ok.inj h
        simp only [hpv, Bool.false_eq_true, if_false] at h2
        exact absurd h2 (emitArg_ne_nil false _ _ (tag_eq_ne_empty tag _))
    | strPtr p =>
      cases p with
      | none => simp [Value.isZero] at hz
      | some s =>
        cases hpv : (goAtoi tag).isSome with
        | true =>
          by_cases hs : s = ""
          · simp [emitsNothing, hs]
          · have h2 := Except.ok.inj h
            simp only [hpv, if_true] at h2
            exact absurd h2 (emitArg_ne_nil true _ s hs)
        | false =>
          have h2 := Except.ok.inj h
          simp only [hpv, Bool.false_eq_true, if_false] at h2
          exact absurd h2 (emitArg_ne_nil false _ _ (tag_eq_ne_empty tag _))
    | strList l =>
      cases l with
      | nil => simp [Value.isZero] at hz
      | cons s rest =>
        cases hpv : (goAtoi tag).isSome with
        | true =>
          simp only [hpv, if_true] at h
          have h2 := Except.ok.inj h
          have h3 := congrArg Prod.snd h2
          simp only at h3
          have h4 := foldl_posInsert_length rest
            (posInsert [] ((goAtoi tag).getD 0) s) ((goAtoi tag).getD 0 + 1)
          rw [List.foldl_cons] at h3
          rw [h3] at h4
          simp [posInsert] at h4
        | false =>
          simp only [hpv, Bool.false_eq_true, if_false] at h
          have h2 := Except.ok.inj h
          have h3 := congrArg Prod.fst h2
          simp at h3
    | other kind z tq =>
      cases tq with
      | none => simp at h
      | some t =>
        cases hpv : (goAtoi tag).isSome with
        | true =>
          by_cases hs : t = ""
          · simp [emitsNothing, hs]
          · have h2 := Except.ok.inj h
            simp only [hpv, if_true] at h2
            exact absurd h2 (emitArg_ne_nil true _ t hs)
        | false =>
          have h2 := Except.ok.inj h
          simp only [hpv, Bool.false_eq_true, if_false] at h2
          exact absurd h2 (emitArg_ne_nil false _ _ (tag_eq_ne_empty tag _))
  · intro h
    rcases h with ht | hex | hz | he
    · exact encodePlain_skip _ _ _ _ _ (Or.inl ht)
    · exact encodePlain_skip _ _ _ _ _ (Or.inr (Or.inl hex))
    · exact encodePlain_skip _ _ _ _ _ (Or.inr (Or.inr hz))
    · by_cases ht : tag = ""
      · exact encodePlain_skip _ _ _ _ _ (Or.inl ht)
      by_cases hex : ex = false
      · exact encodePlain_skip _ _ _ _ _ (Or.inr (Or.inl hex))
      by_cases hz : v.isZero = true
      · exact encodePlain_skip _ _ _ _ _ (Or.inr (Or.inr hz))
      rw [Bool.not_eq_true] at hz
      rcases emitsNothing_inv v _ he with ⟨rfl, hpv⟩ |
        ⟨s, rfl, rfl, hpv⟩ | ⟨kind, z, s, rfl, rfl, hpv⟩
      · unfold encodePlain
        rw [if_neg ht, if_neg (by simp [hex, hz])]
        simp [hpv, emitArg]
      · unfold encodePlain
        rw [if_neg ht, if_neg (by simp [hex, hz])]
        simp [hpv, emitArg]
      · unfold encodePlain
        rw [if_neg ht, if_neg (by simp [hex, hz])]
        simp [hpv, emitArg]

end Lvm2
